import Mathlib

/-!
Verification of the cooperative-scheduler design of the python_sheet
repository. The repository's asynchronous demonstrations
(src/core/async_programming.py, src/core/functions.py) are client code of a
single-threaded cooperative scheduler with Futures, Locks, Semaphores,
Events, gather/waitFor and iterator pipelines. The scheduler core itself is
not part of the repository's sources, so the primitives below are modelled
from the specification; the generator-pipeline combinators, the AsyncCounter
iterator and the AsyncResource context manager are translated from the
repository's source files.
-/

/-- Error kinds of the scheduler core: protocol violations, elapsed
waitFor deadlines, and cancellation signals. -/
inductive AsyncError where
  | usageError
  | timeout
  | cancelled
  deriving DecidableEq, Repr

/-! ## Future: a single-assignment result cell -/

/-- Modelled from the spec: the state of a `Future` result cell — Pending,
Resolved with a value, Resolved with an error, or Cancelled (the repository
only exercises `asyncio.Future` as a client in `demonstrate_futures`; the
cell itself is not under src/). -/
inductive FutureState (α : Type) (ε : Type) where
  | pending
  | resolved (v : α)
  | failed (e : ε)
  | cancelled
  deriving DecidableEq, Repr

/-- Outcome of a producer call on a Future: the cell afterwards, and the
error signalled to the caller, if any. -/
structure FutureOp (α : Type) (ε : Type) where
  cell : FutureState α ε
  raised : Option AsyncError
  deriving DecidableEq, Repr

/-- Modelled from the spec: `Future.resolve` transitions Pending→Resolved
exactly once; calling it on a non-Pending cell signals a usage error and
leaves the cell unchanged. -/
def FutureState.resolve {α ε : Type} (f : FutureState α ε) (v : α) : FutureOp α ε :=
  match f with
  | .pending => ⟨.resolved v, none⟩
  | s => ⟨s, some .usageError⟩

/-- Modelled from the spec: `Future.fail` transitions Pending→Resolved-with-
error exactly once; on a non-Pending cell it signals a usage error and
leaves the cell unchanged. -/
def FutureState.fail {α ε : Type} (f : FutureState α ε) (e : ε) : FutureOp α ε :=
  match f with
  | .pending => ⟨.failed e, none⟩
  | s => ⟨s, some .usageError⟩

/-- Modelled from the spec: cancelling a Future transitions
Pending→Cancelled; a non-Pending cell is left unchanged. -/
def FutureState.cancel {α ε : Type} (f : FutureState α ε) : FutureOp α ε :=
  match f with
  | .pending => ⟨.cancelled, none⟩
  | s => ⟨s, some .usageError⟩

/-! ## Event: broadcast signalling primitive -/

/-- Modelled from the spec: Event state — a boolean flag plus the queue of
waiting tasks (the repository only uses `asyncio.Event` as a client in the
`waiter`/`setter` demonstration). -/
structure EventState where
  flag : Bool
  waiters : List Nat
  deriving DecidableEq, Repr

/-- Modelled from the spec: `Event.set` — flag←true, and every currently
queued waiter is woken (broadcast, not just the head); each woken waiter
observes success (resolved-at-wake semantics). Returns the event afterwards
and the wake list pairing each woken task with its observed outcome. -/
def EventState.set (e : EventState) : EventState × List (Nat × Bool) :=
  (⟨true, []⟩, e.waiters.map (fun t => (t, true)))

/-- Modelled from the spec: `Event.wait` — returns immediately when the flag
is already true, otherwise the caller joins the waiter queue and suspends.
The boolean reports whether the call returned without suspending. -/
def EventState.wait (e : EventState) (t : Nat) : EventState × Bool :=
  if e.flag then (e, true) else (⟨e.flag, e.waiters ++ [t]⟩, false)

/-- Modelled from the spec: `Event.clear` — flag←false, no effect on the
waiter queue. -/
def EventState.clear (e : EventState) : EventState :=
  ⟨false, e.waiters⟩

/-! ## waitFor: racing an awaitable against a timer -/

/-- Modelled from the spec: the observable outcome of `waitFor` — the value
when the awaitable wins, whether a Timeout was raised, and which loser was
cancelled. -/
structure WaitForOutcome (α : Type) where
  value : Option α
  timedOut : Bool
  taskCancelled : Bool
  timerCancelled : Bool
  deriving DecidableEq, Repr

/-- Modelled from the spec: `waitFor` races an awaitable (completing at
logical time `completesAt` with value `v`) against a timer with deadline
`timeout`; the timer fires first exactly when its deadline is strictly
earlier; the losing side is cancelled, and exactly one resolution path is
taken. -/
def waitFor {α : Type} (completesAt : Nat) (timeout : Nat) (v : α) : WaitForOutcome α :=
  if timeout < completesAt then
    ⟨none, true, true, false⟩
  else
    ⟨some v, false, false, true⟩

/-! ## Scoped acquisition (async with) -/

/-- Outcome of the body of a scoped-acquisition block: a normal value or a
raised error. -/
inductive BodyOutcome (α : Type) (ε : Type) where
  | finished (v : α)
  | raised (e : ε)
  deriving DecidableEq, Repr

/-- Result of running a scoped-acquisition block: whether the release path
ran, and the value delivered to the caller (`Except.ok none` when the exit
handler suppressed a body error). -/
structure WithRun (α : Type) (ε : Type) where
  released : Bool
  result : Except ε (Option α)

/-- From src/core/async_programming.py (AsyncResource): `__aexit__` runs the
release path and returns False, declining to suppress exceptions. -/
def asyncResourceSuppresses : Bool := false

/-- Modelled from the spec: the scoped-acquisition protocol — the release
path runs on every exit path of the body; when the body raised and the exit
handler does not suppress, the error propagates unchanged to the caller. -/
def runAsyncWith {α ε : Type} (suppresses : Bool) (body : BodyOutcome α ε) : WithRun α ε :=
  match body with
  | .finished v => ⟨true, .ok (some v)⟩
  | .raised e => ⟨true, if suppresses then .ok none else .error e⟩

/-! ## Iterators and generator pipelines -/

/-- The iterator protocol over an underlying sequence, translated from the
generator functions of src/core/functions.py: `step` produces the next value
or signals Exhausted (`none`), leaving an exhausted iterator in place. -/
structure ListIter (α : Type) where
  remaining : List α
  deriving DecidableEq, Repr

/-- One `next()` call: the produced value (`none` = Exhausted) and the
iterator afterwards. -/
def ListIter.step {α : Type} (it : ListIter α) : Option α × ListIter α :=
  match it.remaining with
  | [] => (none, it)
  | x :: xs => (some x, ⟨xs⟩)

/-- The k-th successive `next()` call after the given iterator state. -/
def ListIter.stepN {α : Type} (it : ListIter α) : Nat → Option α × ListIter α
  | 0 => it.step
  | k + 1 => (it.step).2.stepN k

/-- From src/core/functions.py (demonstrate_generators): `pipeline_generator`
yields the integers 0..4. -/
def pipeline_generator : List Int :=
  (List.range 5).map (fun i => (i : Int))

/-- From src/core/functions.py (demonstrate_generators): `double_generator`
yields `num * 2` for each upstream value. -/
def double_generator (gen : List Int) : List Int :=
  gen.map (fun num => num * 2)

/-- From src/core/functions.py (demonstrate_generators): `add_one_generator`
yields `num + 1` for each upstream value. -/
def add_one_generator (gen : List Int) : List Int :=
  gen.map (fun num => num + 1)

/-- From src/core/async_programming.py: the `AsyncCounter` asynchronous
iterator — fields `current` and `stop`. -/
structure AsyncCounter where
  current : Nat
  stop : Nat
  deriving DecidableEq, Repr

/-- From src/core/async_programming.py (AsyncCounter.__anext__): while
`current < stop`, increment `current` and yield its previous value;
otherwise signal Exhausted, leaving the counter unchanged. -/
def AsyncCounter.anext (c : AsyncCounter) : Option Nat × AsyncCounter :=
  if c.current < c.stop then
    (some c.current, ⟨c.current + 1, c.stop⟩)
  else
    (none, c)

/-- Drive an AsyncCounter with the given fuel, collecting every value it
yields until it signals Exhausted. -/
def AsyncCounter.collect : Nat → AsyncCounter → List Nat
  | 0, _ => []
  | fuel + 1, c =>
    match c.anext with
    | (some v, c2) => v :: AsyncCounter.collect fuel c2
    | (none, _) => []

/-! ## Lock: mutual exclusion with FIFO hand-off -/

/-- Modelled from the spec: Lock state — a binary owner slot plus a FIFO
wait queue of blocked tasks (the repository only uses `asyncio.Lock` as a
client in `critical_section`). -/
structure LockState where
  owner : Option Nat
  waiters : List Nat
  deriving DecidableEq, Repr

/-- Result of `Lock.release`: the lock afterwards, the task the lock was
handed to (the head of the wait queue, if any), and the signalled error. -/
structure LockRelease where
  state : LockState
  handedTo : Option Nat
  raised : Option AsyncError
  deriving DecidableEq, Repr

/-- Modelled from the spec: `Lock.acquire` — when unlocked the caller is
granted ownership immediately; when locked the caller joins the tail of the
FIFO wait queue. The boolean reports an immediate grant. -/
def LockState.acquire (l : LockState) (t : Nat) : LockState × Bool :=
  match l.owner with
  | none => (⟨some t, l.waiters⟩, true)
  | some _ => (⟨l.owner, l.waiters ++ [t]⟩, false)

/-- Modelled from the spec: `Lock.release` — only the current owner may
release; ownership is handed atomically to the head of the wait queue so no
later task can steal the lock; a release by a non-owner signals UsageError
and leaves the lock unchanged. -/
def LockState.release (l : LockState) (t : Nat) : LockRelease :=
  if l.owner = some t then
    match l.waiters with
    | [] => ⟨⟨none, []⟩, none, none⟩
    | h :: rest => ⟨⟨some h, rest⟩, some h, none⟩
  else
    ⟨l, none, some .usageError⟩

/-- A request or release step issued by a task against one Lock. -/
inductive LockEvent where
  | acq (t : Nat)
  | rel (t : Nat)
  deriving DecidableEq, Repr

/-- A lock together with the log of grants: the tasks that have been given
the lock so far, in the order the lock was granted. -/
structure LockRun where
  lock : LockState
  grants : List Nat
  deriving DecidableEq, Repr

/-- One scheduler step against the lock, recording every grant (either an
immediate grant on acquire, or the hand-off to the queue head on release). -/
def lockStep (s : LockRun) (ev : LockEvent) : LockRun :=
  match ev with
  | .acq t =>
    let r := s.lock.acquire t
    ⟨r.1, if r.2 then s.grants ++ [t] else s.grants⟩
  | .rel t =>
    let r := s.lock.release t
    ⟨r.state, match r.handedTo with
      | some h => s.grants ++ [h]
      | none => s.grants⟩

/-- Run a sequence of lock events from the free, unqueued lock. -/
def lockRun (evs : List LockEvent) : LockRun :=
  evs.foldl lockStep ⟨⟨none, []⟩, []⟩

/-- The acquire requests of an event sequence, in request order. -/
def lockRequests (evs : List LockEvent) : List Nat :=
  evs.filterMap (fun ev => match ev with
    | .acq t => some t
    | .rel _ => none)

/-! ## Semaphore: counted admission with FIFO hand-off -/

/-- Modelled from the spec: Semaphore state — an integer count plus a FIFO
wait queue — extended with the bookkeeping of which acquisitions are
currently inside the guarded section (the repository only uses
`asyncio.Semaphore(2)` as a client in `worker`). The count is an `Int` so
that the invariant count ≥ 0 is a proved fact rather than a typing
artifact. -/
structure SemState where
  count : Int
  waiters : List Nat
  inside : List Nat
  deriving DecidableEq, Repr

/-- An acquire or release step issued by a task against one Semaphore. -/
inductive SemEvent where
  | acq (t : Nat)
  | rel (t : Nat)
  deriving DecidableEq, Repr

/-- Modelled from the spec: one scheduler step against the semaphore.
Acquire: when the count is positive, decrement it and enter the guarded
section; otherwise join the FIFO wait queue. Release (by a task inside the
section): when the wait queue is non-empty its head is woken and the slot is
handed to it directly (count unchanged); otherwise the count is incremented.
An unbalanced release by a task not inside the section is a flagged caller
error and changes nothing. -/
def semStep (s : SemState) (ev : SemEvent) : SemState :=
  match ev with
  | .acq t =>
    if 0 < s.count then ⟨s.count - 1, s.waiters, s.inside ++ [t]⟩
    else ⟨s.count, s.waiters ++ [t], s.inside⟩
  | .rel t =>
    if t ∈ s.inside then
      match s.waiters with
      | [] => ⟨s.count + 1, [], s.inside.erase t⟩
      | h :: rest => ⟨s.count, rest, s.inside.erase t ++ [h]⟩
    else s

/-- Run a sequence of semaphore events from an initial capacity. -/
def semRun (capacity : Nat) (evs : List SemEvent) : SemState :=
  evs.foldl semStep ⟨capacity, [], []⟩

/-! ## gather: concurrent aggregation with order-stable results -/

/-- Modelled from the spec: the bookkeeping state of a `gather` call — one
slot per gathered task in submission order, filled with that task's terminal
result when it completes, plus the first error seen in completion order (the
repository only uses `asyncio.gather` as a client in `demonstrate_tasks`). -/
structure GatherState (α : Type) (ε : Type) where
  slots : List (Option (Except ε α))
  firstErr : Option ε

/-- The error carried by a terminal result, if any. -/
def errOf {α ε : Type} : Except ε α → Option ε
  | .error e => some e
  | .ok _ => none

/-- Modelled from the spec: `gather` records one completion event — the
completing task's submission index paired with its terminal result — and
keeps the first error by completion order. -/
def gatherStep {α ε : Type} (s : GatherState α ε) (ev : Nat × Except ε α) :
    GatherState α ε :=
  ⟨s.slots.set ev.1 (some ev.2),
    match s.firstErr with
    | some e => some e
    | none => errOf ev.2⟩

/-- Modelled from the spec: a `gather` over n submitted tasks consumes every
completion event — so every sibling task reaches a terminal state — before
the call's own result is produced. -/
def gatherExec {α ε : Type} (n : Nat) (events : List (Nat × Except ε α)) :
    GatherState α ε :=
  events.foldl gatherStep ⟨List.replicate n none, none⟩

/-- Modelled from the spec: the value `gather` returns to its caller — the
first error by completion order when any task failed, otherwise the
successful results in submission order. -/
def gatherResult {α ε : Type} (n : Nat) (events : List (Nat × Except ε α)) :
    Except ε (List α) :=
  match (gatherExec n events).firstErr with
  | some e => .error e
  | none => .ok ((gatherExec n events).slots.filterMap (fun o => o.bind Except.toOption))

/-- The completion events of tasks whose terminal results are given by
`results` (indexed in submission order) and which complete in the relative
order `order`. -/
def completionEvents {α ε : Type} (results : Nat → Except ε α) (order : List Nat) :
    List (Nat × Except ε α) :=
  order.map (fun i => (i, results i))

/-! ## Helper lemmas for the Lock and Semaphore state machines -/

/-- Invariant of the Lock machine: the grant log followed by the wait queue
is exactly the acquire-request log, and a free lock has an empty queue. -/
theorem lockRun_invariant (evs : List LockEvent) :
    ∀ s : LockRun,
    (s.lock.owner = none → s.lock.waiters = []) →
    (evs.foldl lockStep s).grants ++ (evs.foldl lockStep s).lock.waiters
        = s.grants ++ s.lock.waiters ++ lockRequests evs ∧
    ((evs.foldl lockStep s).lock.owner = none →
      (evs.foldl lockStep s).lock.waiters = []) := by
  induction evs with
  | nil =>
    intro s hfree
    exact ⟨by simp [lockRequests], hfree⟩
  | cons ev rest ih =>
    intro s hfree
    cases ev with
    | acq t =>
      cases howner : s.lock.owner with
      | none =>
        have hw := hfree howner
        have step : lockStep s (LockEvent.acq t)
            = ⟨⟨some t, s.lock.waiters⟩, s.grants ++ [t]⟩ := by
          simp [lockStep, LockState.acquire, howner]
        have h2 := ih ⟨⟨some t, s.lock.waiters⟩, s.grants ++ [t]⟩ (by simp)
        rw [List.foldl_cons, step]
        refine ⟨?_, h2.2⟩
        rw [h2.1]
        simp [lockRequests, hw, List.filterMap_cons]
      | some o =>
        have step : lockStep s (LockEvent.acq t)
            = ⟨⟨s.lock.owner, s.lock.waiters ++ [t]⟩, s.grants⟩ := by
          simp [lockStep, LockState.acquire, howner]
        have h2 := ih ⟨⟨s.lock.owner, s.lock.waiters ++ [t]⟩, s.grants⟩
          (by simp [howner])
        rw [List.foldl_cons, step]
        refine ⟨?_, h2.2⟩
        rw [h2.1]
        simp [lockRequests, List.filterMap_cons]
    | rel t =>
      by_cases howner : s.lock.owner = some t
      · cases hq : s.lock.waiters with
        | nil =>
          have step : lockStep s (LockEvent.rel t)
              = ⟨⟨none, []⟩, s.grants⟩ := by
            simp [lockStep, LockState.release, howner, hq]
          have h2 := ih ⟨⟨none, []⟩, s.grants⟩ (by simp)
          rw [List.foldl_cons, step]
          refine ⟨?_, h2.2⟩
          rw [h2.1]
          simp [lockRequests, hq, List.filterMap_cons]
        | cons w rest2 =>
          have step : lockStep s (LockEvent.rel t)
              = ⟨⟨some w, rest2⟩, s.grants ++ [w]⟩ := by
            simp [lockStep, LockState.release, howner, hq]
          have h2 := ih ⟨⟨some w, rest2⟩, s.grants ++ [w]⟩ (by simp)
          rw [List.foldl_cons, step]
          refine ⟨?_, h2.2⟩
          rw [h2.1]
          simp [lockRequests, hq, List.filterMap_cons]
      · have step : lockStep s (LockEvent.rel t) = ⟨s.lock, s.grants⟩ := by
          simp [lockStep, LockState.release, howner]
        have h2 := ih ⟨s.lock, s.grants⟩ hfree
        rw [List.foldl_cons, step]
        refine ⟨?_, h2.2⟩
        rw [h2.1]
        simp [lockRequests, List.filterMap_cons]

/-- Invariant of the Semaphore machine: the count is non-negative and the
count plus the number of occupants equals the configured capacity. -/
theorem semRun_invariant (capacity : Nat) (evs : List SemEvent) :
    ∀ s : SemState,
    0 ≤ s.count → s.count + s.inside.length = capacity →
    0 ≤ (evs.foldl semStep s).count ∧
    (evs.foldl semStep s).count + (evs.foldl semStep s).inside.length = capacity := by
  induction evs with
  | nil =>
    intro s h0 hcap
    exact ⟨h0, hcap⟩
  | cons ev rest ih =>
    intro s h0 hcap
    cases ev with
    | acq t =>
      by_cases hc : 0 < s.count
      · have step : semStep s (SemEvent.acq t)
            = ⟨s.count - 1, s.waiters, s.inside ++ [t]⟩ := by
          simp [semStep, hc]
        rw [List.foldl_cons, step]
        refine ih _ ?_ ?_
        · show (0 : Int) ≤ s.count - 1
          omega
        · show s.count - 1 + ((s.inside ++ [t]).length : Int) = capacity
          simp only [List.length_append, List.length_cons, List.length_nil]
          push_cast
          omega
      · have step : semStep s (SemEvent.acq t)
            = ⟨s.count, s.waiters ++ [t], s.inside⟩ := by
          simp [semStep, hc]
        rw [List.foldl_cons, step]
        exact ih _ h0 hcap
    | rel t =>
      by_cases hmem : t ∈ s.inside
      · have hlen : (s.inside.erase t).length = s.inside.length - 1 :=
          List.length_erase_of_mem hmem
        have hpos : 1 ≤ s.inside.length := List.length_pos.mpr
          (List.ne_nil_of_mem hmem)
        cases hq : s.waiters with
        | nil =>
          have step : semStep s (SemEvent.rel t)
              = ⟨s.count + 1, [], s.inside.erase t⟩ := by
            simp [semStep, hmem, hq]
          rw [List.foldl_cons, step]
          refine ih _ ?_ ?_
          · show (0 : Int) ≤ s.count + 1
            omega
          · show s.count + 1 + ((s.inside.erase t).length : Int) = capacity
            rw [hlen]
            omega
        | cons w rest2 =>
          have step : semStep s (SemEvent.rel t)
              = ⟨s.count, rest2, s.inside.erase t ++ [w]⟩ := by
            simp [semStep, hmem, hq]
          rw [List.foldl_cons, step]
          refine ih _ h0 ?_
          show s.count + ((s.inside.erase t ++ [w]).length : Int) = capacity
          simp only [List.length_append, List.length_cons, List.length_nil, hlen]
          omega
      · have step : semStep s (SemEvent.rel t) = s := by
          simp [semStep, hmem]
        rw [List.foldl_cons, step]
        exact ih _ h0 hcap

/-! ## Helper lemmas for the gather bookkeeping -/

/-- The slot list of the gather bookkeeping keeps its length. -/
theorem gather_foldl_length {α ε : Type} :
    ∀ (events : List (Nat × Except ε α)) (s : GatherState α ε),
    (events.foldl gatherStep s).slots.length = s.slots.length := by
  intro events
  induction events with
  | nil => intro s; rfl
  | cons p rest ih =>
    intro s
    rw [List.foldl_cons, ih]
    simp [gatherStep]

/-- After consuming completion events whose results are determined by their
index, a slot within range holds the result of its task exactly when that
task's index occurred among the events. -/
theorem gather_foldl_slots {α ε : Type} (f : Nat → Except ε α) :
    ∀ (events : List (Nat × Except ε α)) (s : GatherState α ε),
    (∀ p ∈ events, p.2 = f p.1) →
    ∀ j : Nat, j < s.slots.length →
    ((events.foldl gatherStep s).slots)[j]? =
      if j ∈ events.map Prod.fst then some (some (f j)) else s.slots[j]? := by
  intro events
  induction events with
  | nil =>
    intro s hf j hj
    simp
  | cons p rest ih =>
    intro s hf j hj
    obtain ⟨i, r⟩ := p
    have hr : r = f i := hf (i, r) (List.mem_cons_self _ _)
    have hrest : ∀ q ∈ rest, q.2 = f q.1 := fun q hq => hf q (List.mem_cons_of_mem _ hq)
    have hlen : (gatherStep s (i, r)).slots.length = s.slots.length := by
      simp [gatherStep]
    rw [List.foldl_cons, ih (gatherStep s (i, r)) hrest j (by rw [hlen]; exact hj)]
    by_cases hjr : j ∈ rest.map Prod.fst
    · rw [if_pos hjr, if_pos (by simp [hjr])]
    · rw [if_neg hjr]
      show (s.slots.set i (some r))[j]? = _
      by_cases hij : i = j
      · subst hij
        rw [List.getElem?_set, if_pos rfl, if_pos hj, hr]
        rw [if_pos (by simp)]
      · rw [List.getElem?_set_ne hij]
        rw [if_neg (by simp [hij, hjr, Ne.symm hij])]

/-- The first error recorded by the gather bookkeeping is the first error
among the consumed completion events, in completion order. -/
theorem gather_foldl_firstErr {α ε : Type} :
    ∀ (events : List (Nat × Except ε α)) (s : GatherState α ε),
    (events.foldl gatherStep s).firstErr =
      match s.firstErr with
      | some e => some e
      | none => events.findSome? (fun p => errOf p.2) := by
  intro events
  induction events with
  | nil =>
    intro s
    cases h : s.firstErr <;> simp [h]
  | cons p rest ih =>
    intro s
    rw [List.foldl_cons, ih]
    cases h : s.firstErr with
    | some e => simp [gatherStep, h]
    | none =>
      rw [List.findSome?_cons]
      cases hr : errOf p.2 <;> simp [gatherStep, h, hr]

/-- When the gathered tasks complete in any permutation of their submission
order, every slot of the final gather bookkeeping holds its task's terminal
result. -/
theorem gatherExec_slots {α ε : Type} (results : Nat → Except ε α) (n : Nat)
    (order : List Nat) (hperm : order.Perm (List.range n)) :
    (gatherExec n (completionEvents results order)).slots
      = (List.range n).map (fun j => some (results j)) := by
  apply List.ext_getElem?
  intro j
  have hflen : (gatherExec n (completionEvents results order)).slots.length = n := by
    rw [gatherExec, gather_foldl_length]
    exact List.length_replicate n none
  by_cases hj : j < n
  · have hf : ∀ p ∈ completionEvents results order, p.2 = results p.1 := by
      intro p hp
      obtain ⟨i, hi, rfl⟩ := List.mem_map.mp hp
      rfl
    have hidx : (completionEvents results order).map Prod.fst = order := by
      rw [completionEvents, List.map_map]
      exact List.map_id' order
    have hmem : j ∈ (completionEvents results order).map Prod.fst := by
      rw [hidx, hperm.mem_iff, List.mem_range]
      exact hj
    rw [gatherExec, gather_foldl_slots results (completionEvents results order)
      ⟨List.replicate n none, none⟩ hf j
      (by rw [List.length_replicate]; exact hj)]
    rw [if_pos hmem, List.getElem?_map, List.getElem?_range hj]
    rfl
  · rw [List.getElem?_eq_none (by rw [hflen]; omega),
      List.getElem?_eq_none (by rw [List.length_map, List.length_range]; omega)]

/-! ## Theorems for the claims -/

/-- C1: a second `resolve`/`fail` call on an already non-Pending Future
signals a usage error and leaves the cell — hence the previously set
result — unchanged (single assignment: once non-Pending, immutable). -/
theorem future_single_assignment {α ε : Type} (f : FutureState α ε) (v : α) (e : ε)
    (h : f ≠ FutureState.pending) :
    (f.resolve v).raised = some AsyncError.usageError ∧
    (f.resolve v).cell = f ∧
    (f.fail e).raised = some AsyncError.usageError ∧
    (f.fail e).cell = f ∧
    (f.cancel).cell = f := by
  cases f with
  | pending => exact absurd rfl h
  | resolved w => exact ⟨rfl, rfl, rfl, rfl, rfl⟩
  | failed w => exact ⟨rfl, rfl, rfl, rfl, rfl⟩
  | cancelled => exact ⟨rfl, rfl, rfl, rfl, rfl⟩

/-- Witness for C1 at the concrete cell Resolved 7. -/
theorem future_single_assignment_witness :
    ((FutureState.resolved 7 : FutureState Nat Nat) ≠ FutureState.pending) ∧
    (((FutureState.resolved 7 : FutureState Nat Nat).resolve 9).raised
        = some AsyncError.usageError ∧
      ((FutureState.resolved 7 : FutureState Nat Nat).resolve 9).cell
        = FutureState.resolved 7 ∧
      ((FutureState.resolved 7 : FutureState Nat Nat).fail 5).raised
        = some AsyncError.usageError ∧
      ((FutureState.resolved 7 : FutureState Nat Nat).fail 5).cell
        = FutureState.resolved 7 ∧
      ((FutureState.resolved 7 : FutureState Nat Nat).cancel).cell
        = FutureState.resolved 7) :=
  ⟨by decide, future_single_assignment (FutureState.resolved 7) 9 5 (by decide)⟩

/-- C7: a single `Event.set` wakes every currently queued waiter — the wake
list is exactly the waiter queue (broadcast), the queue is emptied, the flag
becomes true, and every woken waiter observes success. -/
theorem event_set_broadcast (e : EventState) :
    (e.set).2.map Prod.fst = e.waiters ∧
    (e.set).1.waiters = [] ∧
    (e.set).1.flag = true ∧
    ((e.set).2.all fun p => p.2) = true := by
  refine ⟨?_, rfl, rfl, ?_⟩
  · simp [EventState.set, Function.comp_def]
  · simp [EventState.set, List.all_eq_true]

/-- C6: when the timer's deadline is strictly before the awaitable's
completion time, `waitFor` raises Timeout, the awaitable's underlying task
is cancelled, and no value is delivered; in every case exactly one of the
two outcomes (value, Timeout) is observed — never both. -/
theorem waitFor_timeout_race {α : Type} (ta tT : Nat) (v : α) :
    (tT < ta →
      waitFor ta tT v = ⟨none, true, true, false⟩) ∧
    (¬ tT < ta →
      waitFor ta tT v = ⟨some v, false, false, true⟩) ∧
    ((waitFor ta tT v).timedOut = true ↔ (waitFor ta tT v).value = none) := by
  by_cases h : tT < ta
  · refine ⟨fun _ => ?_, fun hc => absurd h hc, ?_⟩
    · simp [waitFor, h]
    · simp [waitFor, h]
  · refine ⟨fun hc => absurd hc h, fun _ => ?_, ?_⟩
    · simp [waitFor, h]
    · simp [waitFor, h]

/-- Witness for C6: a future resolving at logical time 10 raced against a
timeout of 1 yields Timeout with the task cancelled, and only that one
outcome. -/
theorem waitFor_timeout_race_witness :
    (1 < 10) ∧
    waitFor 10 1 (0 : Nat) = ⟨none, true, true, false⟩ ∧
    ((waitFor 10 1 (0 : Nat)).timedOut = true ↔ (waitFor 10 1 (0 : Nat)).value = none) :=
  ⟨by decide, (waitFor_timeout_race 10 1 (0 : Nat)).1 (by decide),
    (waitFor_timeout_race 10 1 (0 : Nat)).2.2⟩

/-- C10: when the body of an `async with AsyncResource()` block raises, the
release path still runs, and because `__aexit__` returns False the error is
not suppressed: it propagates unchanged to the caller. -/
theorem async_with_releases_and_propagates {α ε : Type} (e : ε) :
    runAsyncWith (α := α) asyncResourceSuppresses (BodyOutcome.raised e)
      = ⟨true, Except.error e⟩ := by
  simp [runAsyncWith, asyncResourceSuppresses]

/-- filterMap with an everywhere-defined function is map. -/
theorem filterMap_some_eq_map {α β : Type} (g : α → β) (l : List α) :
    l.filterMap (fun x => some (g x)) = l.map g := by
  induction l with
  | nil => rfl
  | cons x xs ih => simp [List.filterMap_cons, ih]

/-- C2: when every gathered task succeeds, `gather` returns the sequence
whose i-th element is the i-th submitted task's result, for every possible
relative completion order of the tasks (any permutation of the submission
order). -/
theorem gather_order_stability {α ε : Type} (vals : Nat → α) (n : Nat)
    (order : List Nat) (hperm : order.Perm (List.range n)) :
    gatherResult n (completionEvents (fun i => (Except.ok (vals i) : Except ε α)) order)
      = Except.ok ((List.range n).map vals) := by
  have herr : (gatherExec n (completionEvents
      (fun i => (Except.ok (vals i) : Except ε α)) order)).firstErr = none := by
    rw [gatherExec, gather_foldl_firstErr]
    show (completionEvents (fun i => (Except.ok (vals i) : Except ε α)) order).findSome?
      (fun p => errOf p.2) = none
    rw [completionEvents, List.findSome?_map]
    simp [Function.comp_def, errOf]
  have hslots := gatherExec_slots (fun i => (Except.ok (vals i) : Except ε α)) n order hperm
  simp only [gatherResult, herr, hslots, List.filterMap_map]
  simp only [Function.comp_def, Option.some_bind, Except.toOption]
  rw [filterMap_some_eq_map]

/-- Witness for C2: three tasks with results 0, 10, 20 completing in the
order 2nd, 3rd, 1st still yield [0, 10, 20]. -/
theorem gather_order_stability_witness :
    (([1, 2, 0] : List Nat).Perm (List.range 3)) ∧
    gatherResult 3 (completionEvents (fun i => (Except.ok (10 * i) : Except Unit Nat)) [1, 2, 0])
      = Except.ok ((List.range 3).map (fun i => 10 * i)) :=
  ⟨by decide, gather_order_stability (fun i => 10 * i) 3 [1, 2, 0] (by decide)⟩

/-- C3: when at least one gathered task ends with an error, `gather`
re-raises the first such error by completion order, and it does so only
after every sibling task has reached a terminal state: every slot of the
final bookkeeping holds its task's terminal result. -/
theorem gather_first_error_after_all_terminal {α ε : Type} (results : Nat → Except ε α)
    (n : Nat) (order : List Nat) (e : ε)
    (hperm : order.Perm (List.range n))
    (hfirst : order.findSome? (fun i => errOf (results i)) = some e) :
    gatherResult n (completionEvents results order) = Except.error e ∧
    (gatherExec n (completionEvents results order)).slots
      = (List.range n).map (fun j => some (results j)) := by
  have hslots := gatherExec_slots results n order hperm
  have herr : (gatherExec n (completionEvents results order)).firstErr = some e := by
    rw [gatherExec, gather_foldl_firstErr]
    show (completionEvents results order).findSome? (fun p => errOf p.2) = some e
    rw [completionEvents, List.findSome?_map]
    exact hfirst
  refine ⟨?_, hslots⟩
  simp only [gatherResult, herr]

/-- Witness for C3: of three tasks completing in the order 3rd, 1st, 2nd,
where the 1st fails with error 5, gather re-raises 5 (the first failure by
completion order) with every slot terminal. -/
theorem gather_first_error_after_all_terminal_witness :
    (([2, 0, 1] : List Nat).Perm (List.range 3)) ∧
    (([2, 0, 1] : List Nat).findSome?
      (fun i => errOf ((fun i => if i = 0 then (Except.error 5 : Except Nat Nat)
        else Except.ok i) i)) = some 5) ∧
    (gatherResult 3 (completionEvents
        (fun i => if i = 0 then (Except.error 5 : Except Nat Nat) else Except.ok i)
        [2, 0, 1]) = Except.error 5 ∧
      (gatherExec 3 (completionEvents
        (fun i => if i = 0 then (Except.error 5 : Except Nat Nat) else Except.ok i)
        [2, 0, 1])).slots
        = (List.range 3).map (fun j => some ((fun i => if i = 0 then
            (Except.error 5 : Except Nat Nat) else Except.ok i) j))) :=
  ⟨by decide, by decide,
    gather_first_error_after_all_terminal
      (fun i => if i = 0 then (Except.error 5 : Except Nat Nat) else Except.ok i)
      3 [2, 0, 1] 5 (by decide) (by decide)⟩

/-- C4: for every sequence of acquire/release events against one Lock, the
log of lock grants followed by the still-waiting queue equals the log of
acquire requests in request order — so the lock is granted in FIFO order of
the acquire requests and no later requester is ever granted the lock before
an earlier still-waiting requester. -/
theorem lock_grants_fifo (evs : List LockEvent) :
    (lockRun evs).grants ++ (lockRun evs).lock.waiters = lockRequests evs := by
  unfold lockRun
  exact (lockRun_invariant evs ⟨⟨none, []⟩, []⟩ (fun _ => rfl)).1

/-- C9: releasing a Lock from a task that is not the current owner signals a
usage error, hands the lock to nobody, and leaves the lock's owner and wait
queue unchanged. -/
theorem lock_release_not_owner (l : LockState) (t : Nat)
    (h : l.owner ≠ some t) :
    (l.release t).raised = some AsyncError.usageError ∧
    (l.release t).state = l ∧
    (l.release t).handedTo = none := by
  simp [LockState.release, h]

/-- Witness for C9: task 3 releasing a lock owned by task 1. -/
theorem lock_release_not_owner_witness :
    ((⟨some 1, [2]⟩ : LockState).owner ≠ some 3) ∧
    (((⟨some 1, [2]⟩ : LockState).release 3).raised = some AsyncError.usageError ∧
      ((⟨some 1, [2]⟩ : LockState).release 3).state = ⟨some 1, [2]⟩ ∧
      ((⟨some 1, [2]⟩ : LockState).release 3).handedTo = none) :=
  ⟨by decide, lock_release_not_owner ⟨some 1, [2]⟩ 3 (by decide)⟩

/-- C5: for a Semaphore of capacity 2, after every possible sequence of
acquire/release events (hence at every reachable state, covering 4 competing
tasks under any interleaving) at most 2 tasks are simultaneously inside the
guarded section and the count is never negative. -/
theorem semaphore_capacity_two (evs : List SemEvent) :
    (semRun 2 evs).inside.length ≤ 2 ∧ 0 ≤ (semRun 2 evs).count := by
  unfold semRun
  have h := semRun_invariant 2 evs ⟨((2 : Nat) : Int), [], []⟩ (by decide) (by decide)
  have h1 := h.1
  have h2 := h.2
  exact ⟨by omega, h1⟩

/-- C8: the pipeline source→double→addOne over the source sequence [0,1,2]
yields exactly 1, 3, 5 in order; the following `next()` signals Exhausted,
and every subsequent `next()` also signals Exhausted with the iterator state
unchanged (no resurrection). The source sequence [0,1,2] is exactly what the
AsyncCounter(3) iterator yields. -/
theorem pipeline_yields_then_exhausted :
    AsyncCounter.collect 10 ⟨0, 3⟩ = [0, 1, 2] ∧
    add_one_generator (double_generator [0, 1, 2]) = [1, 3, 5] ∧
    (ListIter.mk (add_one_generator (double_generator [0, 1, 2]))).step
      = (some 1, ListIter.mk [3, 5]) ∧
    (ListIter.mk [3, 5] : ListIter Int).step = (some 3, ListIter.mk [5]) ∧
    (ListIter.mk [5] : ListIter Int).step = (some 5, ListIter.mk []) ∧
    ∀ k, (ListIter.mk [] : ListIter Int).stepN k = (none, ListIter.mk []) := by
  refine ⟨by decide, by decide, rfl, rfl, rfl, ?_⟩
  intro k
  induction k with
  | zero => rfl
  | succ k ih => exact ih
